import Mathlib

/-!
Shallow embedding of the core logic of the Barrel-Volume-Analyst repository:
the dataset merge engine (`src/utils/dataUtils.ts`, `mergeBarrelData`) and the
height-to-volume calculator (`src/components/VolumeCalculator.tsx`,
`handleCalculate` together with the memoized `heightKey` / `dataMap`).

Modelling conventions:
* JavaScript numbers are modelled as rationals (`ℚ`); `NaN` is modelled by
  `Option.none` in the results of the coercion functions `toNumber`
  (ECMAScript `Number(...)`) and `cellParseFloat` (`parseFloat(String(...))`).
* A JS object (a table row) is an insertion-ordered association list from
  column name to cell; a JS `Map` is an insertion-ordered association list
  whose `set` replaces the value in place for an existing key and appends
  for a fresh key, exactly as ECMAScript specifies.
* `Array.prototype.sort` is modelled as a stable insertion sort
  (ECMAScript requires sort to be stable; for the non-transitive comparator
  produced by NaN comparands the exact order is implementation-defined, and
  the stable insertion sort below is the fixed model used here).
* Reading a property of `undefined` throws in JS (e.g. `row[heightKey].value`
  for a row missing the height column).  The embedding totalizes these spots
  (skipping the row, or yielding `CVal.null`); every theorem below only uses
  them under hypotheses that keep the modelled run inside the defined domain.
-/

/-- Value stored in a table cell: `number | string | null` from `types.ts`. -/
inductive CVal where
  | num : ℚ → CVal
  | str : String → CVal
  | null : CVal
deriving DecidableEq

/-- A cell: `{ value, confidence }` from `types.ts` (`CellData`). -/
structure CellData where
  value : CVal
  confidence : String
deriving DecidableEq

/-- A row: a JS object mapping column names to cells, in insertion order. -/
abbrev TableRow := List (String × CellData)

/-- A dataset: `BarrelData = TableRow[]`. -/
abbrev BarrelData := List TableRow

/-- The merge map `Map<string | number, TableRow>` keyed by raw cell values. -/
abbrev KeyMap := List (CVal × TableRow)

/-- Lookup in an insertion-ordered association list (JS object read / `Map.get`). -/
def alGet {α β : Type} [DecidableEq α] : List (α × β) → α → Option β
  | [], _ => none
  | (k', v) :: rest, k => if k' = k then some v else alGet rest k

/-- Update in an insertion-ordered association list (JS property write /
`Map.set`): replaces the value in place for an existing key, appends otherwise. -/
def alSet {α β : Type} [DecidableEq α] : List (α × β) → α → β → List (α × β)
  | [], k, v => [(k, v)]
  | (k', v') :: rest, k, v =>
    if k' = k then (k', v) :: rest else (k', v') :: alSet rest k v

/-- Whitespace recognized when trimming a string before numeric coercion. -/
def isWS (c : Char) : Bool :=
  c = ' ' || c = '\t' || c = '\n' || c = '\r' || c = '\x0b' || c = '\x0c'

/-- Numeric value of a list of decimal digit characters. -/
def digitsToNat (l : List Char) : ℕ :=
  l.foldl (fun n c => 10 * n + (c.toNat - 48)) 0

/-- Parse a full unsigned decimal numeral (`digits`, `digits.digits`,
`digits.` or `.digits`); the whole input must be consumed.  Models the
decimal-literal fragment of ECMAScript `ToNumber` on strings. -/
def parseDecimal (l : List Char) : Option ℚ :=
  let ip := l.takeWhile Char.isDigit
  let rest := l.dropWhile Char.isDigit
  match rest with
  | [] => if ip.isEmpty then none else some ((digitsToNat ip : ℚ))
  | '.' :: rest2 =>
    let fp := rest2.takeWhile Char.isDigit
    let rest3 := rest2.dropWhile Char.isDigit
    if rest3.isEmpty && !(ip.isEmpty && fp.isEmpty) then
      some ((digitsToNat ip : ℚ) + (digitsToNat fp : ℚ) / ((10 : ℚ) ^ fp.length))
    else none
  | _ => none

/-- Trim leading and trailing whitespace. -/
def trimWS (l : List Char) : List Char :=
  ((l.dropWhile isWS).reverse.dropWhile isWS).reverse

/-- ECMAScript `Number(s)` for a string `s` (decimal forms): trimmed empty
string is `0`; otherwise an optionally signed decimal numeral; anything else
is NaN (`none`).  (Hex/exponent/Infinity forms never occur in this app.) -/
def jsStrToNum (s : String) : Option ℚ :=
  match trimWS s.data with
  | [] => some 0
  | '-' :: rest => (parseDecimal rest).map (fun q => -q)
  | '+' :: rest => parseDecimal rest
  | l => parseDecimal l

/-- ECMAScript `Number(v)` on a cell value: numbers map to themselves,
`null` to `0`, strings through `jsStrToNum`; `none` models NaN. -/
def toNumber : CVal → Option ℚ
  | .num q => some q
  | .null => some 0
  | .str s => jsStrToNum s

/-- Longest-prefix unsigned decimal parse for `parseFloat`: trailing junk is
ignored; no digits at all is NaN (`none`). -/
def parseFloatCore (l : List Char) : Option ℚ :=
  let ip := l.takeWhile Char.isDigit
  let rest := l.dropWhile Char.isDigit
  match rest with
  | '.' :: rest2 =>
    let fp := rest2.takeWhile Char.isDigit
    if ip.isEmpty && fp.isEmpty then none
    else some ((digitsToNat ip : ℚ) + (digitsToNat fp : ℚ) / ((10 : ℚ) ^ fp.length))
  | _ => if ip.isEmpty then none else some ((digitsToNat ip : ℚ))

/-- ECMAScript `parseFloat(s)`: skip leading whitespace, optional sign,
longest decimal prefix; `none` models NaN. -/
def jsParseFloat (s : String) : Option ℚ :=
  match s.data.dropWhile isWS with
  | '-' :: rest => (parseFloatCore rest).map (fun q => -q)
  | '+' :: rest => parseFloatCore rest
  | l => parseFloatCore l

/-- `parseFloat(String(v))` as used in the nearest-neighbor scan:
`String(null) = "null"` parses to NaN; a number round-trips to itself. -/
def cellParseFloat : CVal → Option ℚ
  | .num q => some q
  | .null => none
  | .str s => jsParseFloat s

/-- Floor of a rational (`Math.floor`). -/
def ratFloor (q : ℚ) : ℤ := Int.fdiv q.num (q.den : ℤ)

/-- Ceiling of a rational (`Math.ceil`). -/
def ratCeil (q : ℚ) : ℤ := -ratFloor (-q)

/-- Absolute value (`Math.abs`); the sign test reads the numerator so that
the definition evaluates inside the kernel. -/
def ratAbs (q : ℚ) : ℚ := if q.num < 0 then -q else q

/-- `Number.prototype.toFixed(2)`: round to the nearest hundredth, ties away
from zero, and render with exactly two digits after the decimal point. -/
def toFixed2 (q : ℚ) : String :=
  let a := ratAbs q
  let n := (ratFloor (a * 100 + 1 / 2)).toNat
  let body := Nat.repr (n / 100) ++ "." ++
    String.mk [Nat.digitChar (n % 100 / 10), Nat.digitChar (n % 10)]
  if q.num < 0 then "-" ++ body else body

/-- The primary-key value of a row under column `pk` (the raw cell value). -/
def rowKeyVal (pk : String) (r : TableRow) : Option CVal :=
  (alGet r pk).map (fun cd => cd.value)

/-- `Object.keys(existingData[0])[0]`: the first column name of the first row. -/
def firstColName : BarrelData → Option String
  | [] => none
  | r :: _ => (r.map Prod.fst).head?

/-- Column-by-column merge of an incoming row into an existing row
(`dataUtils.ts` lines 29-38): start from a copy of the existing row and
overwrite a cell only when the incoming cell value is non-null. -/
def mergeRow (existingRow newRow : TableRow) : TableRow :=
  newRow.foldl
    (fun acc p => if p.2.value = CVal.null then acc else alSet acc p.1 p.2)
    existingRow

/-- One step of populating the merge map with an existing row
(`dataUtils.ts` lines 16-20): index the row by its primary-key cell value
unless that cell is missing or null. -/
def indexStep (pk : String) (m : KeyMap) (row : TableRow) : KeyMap :=
  match alGet row pk with
  | none => m
  | some cd => if cd.value = CVal.null then m else alSet m cd.value row

/-- Populate the merge map with the existing rows keyed by their non-null
primary-key values (`dataUtils.ts` lines 15-20); rows with a missing or
null key are dropped. -/
def buildIndex (pk : String) (existing : BarrelData) : KeyMap :=
  existing.foldl (indexStep pk) []

/-- Process one incoming row (`dataUtils.ts` lines 23-45): skip null/absent
keys, merge into an existing entry, or add as a fresh entry. -/
def insertRow (pk : String) (m : KeyMap) (newRow : TableRow) : KeyMap :=
  match alGet newRow pk with
  | none => m
  | some cd =>
    if cd.value = CVal.null then m
    else
      match alGet m cd.value with
      | some existingRow => alSet m cd.value (mergeRow existingRow newRow)
      | none => alSet m cd.value newRow

/-- The fully populated merge map, before sorting. -/
def mergedMap (pk : String) (existing newData : BarrelData) : KeyMap :=
  newData.foldl (insertRow pk) (buildIndex pk existing)

/-- `Number(row[pk].value)` of the primary-key cell, `none` for NaN (a row
whose primary-key cell is absent would throw in JS; inside the merge every
map entry does carry the key column). -/
def numKey? (pk : String) (r : TableRow) : Option ℚ :=
  (rowKeyVal pk r).bind toNumber

/-- Numeric primary-key value with NaN defaulted to `0`; only used in
statements under hypotheses that make every key numeric. -/
def rowNumKey (pk : String) (r : TableRow) : ℚ :=
  (numKey? pk r).getD 0

/-- The sort comparator of `dataUtils.ts` lines 48-53 as a `≤` test:
`Number(a[pk].value) - Number(b[pk].value)`, with `0` (so `true` here)
whenever either side is NaN. -/
def rowLe (pk : String) (a b : TableRow) : Bool :=
  match numKey? pk a, numKey? pk b with
  | some x, some y => decide (x ≤ y)
  | _, _ => true

/-- Insert into a sorted list, before the first element that is not strictly
smaller (the building block of the stable insertion sort). -/
def ordInsert (le : TableRow → TableRow → Bool) (x : TableRow) :
    List TableRow → List TableRow
  | [] => [x]
  | y :: ys => if le x y then x :: y :: ys else y :: ordInsert le x ys

/-- Stable insertion sort modelling `Array.prototype.sort`. -/
def sortRows (le : TableRow → TableRow → Bool) : List TableRow → List TableRow
  | [] => []
  | x :: xs => ordInsert le x (sortRows le xs)

/-- `mergeBarrelData` from `src/utils/dataUtils.ts`. -/
def mergeBarrelData (existingData newData : BarrelData) : BarrelData :=
  if newData.isEmpty then existingData
  else if existingData.isEmpty then newData
  else
    match firstColName existingData with
    | none => newData
    | some pk =>
      if pk = "" then newData
      else sortRows (rowLe pk) ((mergedMap pk existingData newData).map Prod.snd)

/-- Substring test on character lists (JS `String.prototype.includes`). -/
def hasSubstr (pat : List Char) : List Char → Bool
  | [] => pat.isEmpty
  | c :: rest => pat.isPrefixOf (c :: rest) || hasSubstr pat rest

/-- `h.toLowerCase().includes('mouill')` from `VolumeCalculator.tsx` line 20
(lower-casing character by character; the headers in play are ASCII). -/
def containsMouill (hname : String) : Bool :=
  hasSubstr "mouill".data (hname.data.map Char.toLower)

/-- The memoized `heightKey` (`VolumeCalculator.tsx` lines 19-20): the first
header containing `mouill` (case-insensitive), else the first header. -/
def chooseHeightKey : BarrelData → Option String
  | [] => none
  | r :: _ =>
    match (r.map Prod.fst).find? containsMouill with
    | some hh => some hh
    | none => (r.map Prod.fst).head?

/-- Read `row[k].value`; an absent column would throw in JS and is
totalized to `null` here (theorems only use it with the column present). -/
def getVal (r : TableRow) (k : String) : CVal :=
  match alGet r k with
  | some cd => cd.value
  | none => CVal.null

/-- `Number(row[heightKey].value)` for the `dataMap` index, `none` for NaN
(and for a row missing the height column, which would throw in JS). -/
def heightNum (hk : String) (r : TableRow) : Option ℚ :=
  match alGet r hk with
  | some cd => toNumber cd.value
  | none => none

/-- The `dataMap : Map<number, TableRow>` of `VolumeCalculator.tsx` lines
24-30: rows indexed by coerced numeric height, NaN heights skipped, a later
row overwriting an earlier one at the same height. -/
abbrev HeightMap := List (ℚ × TableRow)

/-- One step of building the `dataMap` height index: insert a row under its
coerced numeric height, skipping NaN heights. -/
def dataMapStep (hk : String) (m : HeightMap) (row : TableRow) : HeightMap :=
  match heightNum hk row with
  | some q => alSet m q row
  | none => m

/-- Build the `dataMap` height index. -/
def buildDataMap (hk : String) (data : BarrelData) : HeightMap :=
  data.foldl (dataMapStep hk) []

/-- `parseFloat(String(row[heightKey].value))` used by the nearest scan. -/
def rowPF (hk : String) (r : TableRow) : Option ℚ :=
  match alGet r hk with
  | some cd => cellParseFloat cd.value
  | none => none

/-- One step of the nearest-neighbor scan (`VolumeCalculator.tsx` lines
95-105): keep the first row found so far with strictly smaller distance. -/
def closestStep (hk : String) (h : ℚ) (acc : Option (TableRow × ℚ))
    (row : TableRow) : Option (TableRow × ℚ) :=
  match rowPF hk row with
  | none => acc
  | some rh =>
    match acc with
    | none => some (row, ratAbs (rh - h))
    | some (br, bd) =>
      if bd ≤ ratAbs (rh - h) then some (br, bd) else some (row, ratAbs (rh - h))

/-- The nearest-neighbor fallback scan over all rows, left to right. -/
def findClosest (hk : String) (h : ℚ) (data : BarrelData) : Option TableRow :=
  (data.foldl (closestStep hk h) none).map Prod.fst

/-- Outcome statuses of a calculation, named after the spec; the source
renders them as the strings `N/A`, `Invalid input`, exact/interpolated/
nearest values, `Data not numeric` and `No match found`. -/
inductive CalcStatus where
  | unavailable | invalidInput | exact | interpolated | nonNumeric | nearest | notFound
deriving DecidableEq

/-- Result of a calculation: status plus displayed value (notes omitted). -/
structure CalcResult where
  status : CalcStatus
  value : Option CVal
deriving DecidableEq

/-- The body of `handleCalculate` after the guards: exact match, floor/ceil
interpolation, then nearest-neighbor fallback. -/
def calcBody (hk : String) (data : BarrelData) (tc : String) (h : ℚ) : CalcResult :=
  if (buildDataMap hk data).isEmpty then ⟨.unavailable, none⟩
  else
    match alGet (buildDataMap hk data) h with
    | some row => ⟨.exact, some (getVal row tc)⟩
    | none =>
      match alGet (buildDataMap hk data) ((ratFloor h : ℤ) : ℚ),
            alGet (buildDataMap hk data) ((ratCeil h : ℤ) : ℚ) with
      | some lr, some ur =>
        match toNumber (getVal lr tc), toNumber (getVal ur tc) with
        | some lv, some uv =>
          ⟨.interpolated,
            some (CVal.str (toFixed2 (lv + (uv - lv) * (h - ((ratFloor h : ℤ) : ℚ)))))⟩
        | _, _ => ⟨.nonNumeric, none⟩
      | _, _ =>
        match findClosest hk h data with
        | some row => ⟨.nearest, some (getVal row tc)⟩
        | none => ⟨.notFound, none⟩

/-- `handleCalculate` guards (`VolumeCalculator.tsx` lines 51-54): disabled
data, missing/empty height key, empty target column, or an empty height
index all yield `N/A` (status `unavailable`). -/
def calcFrom : Option String → BarrelData → String → ℚ → CalcResult
  | none, _, _, _ => ⟨.unavailable, none⟩
  | some hk, data, tc, h =>
    if hk = "" ∨ tc = "" then ⟨.unavailable, none⟩
    else calcBody hk data tc h

/-- `calculate(dataset, targetColumn, queryHeight)`: the pure core of
`handleCalculate`, taking the already-parsed query height (the
`Invalid input` branch for an unparsable text field is not modelled, its
status is kept in `CalcStatus` for completeness). -/
def calculate (data : BarrelData) (tc : String) (h : ℚ) : CalcResult :=
  calcFrom (chooseHeightKey data) data tc h

/-- Decidable form of "the primary-key cell, when present and non-null,
coerces to a number" (used as a hypothesis in sortedness statements). -/
def keyNumericOk (pk : String) (r : TableRow) : Bool :=
  match rowKeyVal pk r with
  | none => true
  | some v => (v == CVal.null) || (toNumber v).isSome

/-- Decidable form of "the primary-key cell is present, non-null, and
numerically coercible" (used as a hypothesis for merge idempotence). -/
def keyAllNum (pk : String) (r : TableRow) : Bool :=
  match rowKeyVal pk r with
  | none => false
  | some v => (!(v == CVal.null)) && (toNumber v).isSome

/-- Well-formedness of a merge map: keys are pairwise distinct, every key is
non-null, and every stored row carries its entry key in its primary-key
cell.  This is an invariant of `mergedMap`, not an assumption on inputs. -/
def mapWF (pk : String) (m : KeyMap) : Prop :=
  ((m.map Prod.fst).Nodup) ∧ ∀ p ∈ m, p.1 ≠ CVal.null ∧ rowKeyVal pk p.2 = some p.1

/-- A numeric cell with high confidence (shorthand for concrete datasets). -/
def cellN (q : ℚ) : CellData := ⟨CVal.num q, "high"⟩

/-- A string cell with high confidence. -/
def cellS (s : String) : CellData := ⟨CVal.str s, "high"⟩

/-- A null cell with high confidence (a confidently empty reading). -/
def cellNull : CellData := ⟨CVal.null, "high"⟩

/-- Dataset of the interpolation-law example: heights 20 and 30 only. -/
def interpExData : BarrelData :=
  [[("mouille", cellN 20), ("vol", cellN 200)],
   [("mouille", cellN 30), ("vol", cellN 300)]]

/-- Dataset for the interpolation witness: heights 2 and 3. -/
def interpWitData : BarrelData :=
  [[("mouille", cellN 2), ("vol", cellN 20)],
   [("mouille", cellN 3), ("vol", cellN 30)]]

/-- Dataset of the rounding example: 20 maps to 200 and 21 to 201.3. -/
def roundExData : BarrelData :=
  [[("mouille", cellN 20), ("vol", cellN 200)],
   [("mouille", cellN 21), ("vol", cellN (2013 / 10))]]

/-- Existing dataset whose only key is the number 25. -/
def numKeyData : BarrelData := [[("k", cellN 25), ("v", cellN 1)]]

/-- Incoming dataset whose only key is the string "25". -/
def strKeyData : BarrelData := [[("k", cellS "25"), ("v", cellN 2)]]

/-- A dataset with numeric keys out of ascending order. -/
def unsortedData : BarrelData :=
  [[("k", cellN 30), ("v", cellN 1)], [("k", cellN 20), ("v", cellN 2)]]

/-- Row with numeric key 3. -/
def rowK3 : TableRow := [("k", cellN 3), ("v", cellN 1)]

/-- Row with the non-numeric string key "abc". -/
def rowKabc : TableRow := [("k", cellS "abc"), ("v", cellN 2)]

/-- Row with numeric key 1. -/
def rowK1 : TableRow := [("k", cellN 1), ("v", cellN 3)]

/-- Dataset interleaving a NaN-keyed row between numeric keys 3 and 1. -/
def mixedKeyData : BarrelData := [rowK3, rowKabc, rowK1]

/-- Dataset whose single row has a null height cell and volume 42. -/
def nullHeightData : BarrelData := [[("mouille", cellNull), ("vol", cellN 42)]]

/-- Dataset with heights 10 and 50 for the nearest-neighbor example. -/
def nearestExData : BarrelData :=
  [[("mouille", cellN 10), ("vol", cellN 220)],
   [("mouille", cellN 50), ("vol", cellN 500)]]

/-- Dataset whose first column is `H` but which also has a `mouille` column. -/
def mouillPrefData : BarrelData :=
  [[("H", cellN 10), ("mouille", cellN 20), ("vol", cellN 100)],
   [("H", cellN 20), ("mouille", cellN 30), ("vol", cellN 200)]]

/-- Existing dataset for the merge-conservatism witness. -/
def consExistData : BarrelData := [[("k", cellN 1), ("vol", cellN 7)]]

/-- Incoming dataset for the merge-conservatism witness: same key, a null
`vol` cell, and a fresh `w` column. -/
def consIncData : BarrelData :=
  [[("k", cellN 1), ("vol", ⟨CVal.null, "low"⟩), ("w", cellN 9)]]

/-- A sorted dataset with distinct numeric keys for the idempotence witness. -/
def sortedData : BarrelData :=
  [[("k", cellN 20), ("v", cellN 2)], [("k", cellN 30), ("v", cellN 1)]]

/-- C7: merging an empty incoming batch returns the existing dataset
unchanged, and merging into an empty existing dataset returns the incoming
batch unchanged. -/
theorem merge_identity (D : BarrelData) :
    mergeBarrelData D [] = D ∧ mergeBarrelData [] D = D := by
  constructor
  · simp [mergeBarrelData]
  · cases D <;> simp [mergeBarrelData]

theorem alGet_alSet_self {α β : Type} [DecidableEq α] (m : List (α × β)) (k : α) (v : β) :
    alGet (alSet m k v) k = some v := by
  induction m with
  | nil => simp [alSet, alGet]
  | cons p rest ih =>
    obtain ⟨k', v'⟩ := p
    by_cases h : k' = k
    · simp [alSet, alGet, h]
    · simp [alSet, alGet, h, ih]

theorem alGet_alSet_ne {α β : Type} [DecidableEq α] (m : List (α × β)) {k' k : α} (v : β)
    (h : k' ≠ k) : alGet (alSet m k' v) k = alGet m k := by
  induction m with
  | nil => simp [alSet, alGet, h]
  | cons p rest ih =>
    obtain ⟨k0, v0⟩ := p
    by_cases h0 : k0 = k'
    · subst h0
      simp [alSet, alGet, h]
    · simp [alSet, alGet, h0, ih]

theorem alSet_keys_of_mem {α β : Type} [DecidableEq α] (m : List (α × β)) {k : α} (v : β)
    (h : alGet m k ≠ none) : (alSet m k v).map Prod.fst = m.map Prod.fst := by
  induction m with
  | nil => simp [alGet] at h
  | cons p rest ih =>
    obtain ⟨k0, v0⟩ := p
    by_cases h0 : k0 = k
    · simp [alSet, h0]
    · simp [alGet, h0] at h
      simp [alSet, alGet, h0, ih h]

theorem alSet_append {α β : Type} [DecidableEq α] (m : List (α × β)) {k : α} (v : β)
    (h : alGet m k = none) : alSet m k v = m ++ [(k, v)] := by
  induction m with
  | nil => simp [alSet]
  | cons p rest ih =>
    obtain ⟨k0, v0⟩ := p
    by_cases h0 : k0 = k
    · simp [alGet, h0] at h
    · simp [alGet, h0] at h
      simp [alSet, h0, ih h]

theorem alSet_self_eq {α β : Type} [DecidableEq α] (m : List (α × β)) {k : α} {v : β}
    (h : alGet m k = some v) : alSet m k v = m := by
  induction m with
  | nil => simp [alGet] at h
  | cons p rest ih =>
    obtain ⟨k0, v0⟩ := p
    by_cases h0 : k0 = k
    · simp [alGet, h0] at h
      simp [alSet, h0, h]
    · simp [alGet, h0] at h
      simp [alSet, h0, ih h]

theorem alGet_eq_none_iff {α β : Type} [DecidableEq α] (m : List (α × β)) (k : α) :
    alGet m k = none ↔ k ∉ m.map Prod.fst := by
  induction m with
  | nil => simp [alGet]
  | cons p rest ih =>
    obtain ⟨k0, v0⟩ := p
    by_cases h0 : k0 = k
    · simp [alGet, h0]
    · simp [alGet, h0, ih, Ne.symm h0]

theorem mem_keys_alSet {α β : Type} [DecidableEq α] (m : List (α × β)) (k k' : α) (v : β) :
    k' ∈ (alSet m k v).map Prod.fst ↔ k' ∈ m.map Prod.fst ∨ k' = k := by
  induction m with
  | nil => simp [alSet]
  | cons p rest ih =>
    obtain ⟨k0, v0⟩ := p
    by_cases h0 : k0 = k
    · subst h0
      by_cases h1 : k' = k0 <;> simp [alSet, h1]
    · simp [alSet, alGet, h0, ih]
      tauto

theorem nodup_keys_alSet {α β : Type} [DecidableEq α] (m : List (α × β)) (k : α) (v : β)
    (h : (m.map Prod.fst).Nodup) : ((alSet m k v).map Prod.fst).Nodup := by
  by_cases hk : alGet m k = none
  · rw [alSet_append m v hk]
    have hnot := (alGet_eq_none_iff m k).mp hk
    simp [List.nodup_append, h, hnot]
  · rw [alSet_keys_of_mem m v hk]
    exact h

theorem mem_alSet_cases {α β : Type} [DecidableEq α] (m : List (α × β)) (k : α) (v : β)
    (p : α × β) (hp : p ∈ alSet m k v) : p = (k, v) ∨ p ∈ m := by
  induction m with
  | nil => simpa [alSet] using hp
  | cons q rest ih =>
    obtain ⟨k0, v0⟩ := q
    by_cases h0 : k0 = k
    · subst h0
      simp [alSet] at hp
      rcases hp with h | h
      · left; simp [h]
      · right; simp [h]
    · simp [alSet, h0] at hp
      rcases hp with h | h
      · right; simp [h]
      · rcases ih h with h1 | h1
        · exact Or.inl h1
        · right; simp [h1]

theorem alGet_of_mem_nodup {α β : Type} [DecidableEq α] (m : List (α × β)) {k : α} {v : β}
    (hnd : (m.map Prod.fst).Nodup) (hmem : (k, v) ∈ m) : alGet m k = some v := by
  induction m with
  | nil => simp at hmem
  | cons p rest ih =>
    obtain ⟨k0, v0⟩ := p
    rw [List.map_cons, List.nodup_cons] at hnd
    rcases List.mem_cons.mp hmem with h | h
    · rw [Prod.mk.injEq] at h
      simp [alGet, h.1.symm, h.2]
    · have hk0 : k0 ≠ k := by
        intro hc
        subst hc
        exact hnd.1 (List.mem_map.mpr ⟨(k0, v), h, rfl⟩)
      simp [alGet, hk0, ih hnd.2 h]

theorem alGet_mem {α β : Type} [DecidableEq α] (m : List (α × β)) {k : α} {v : β}
    (h : alGet m k = some v) : (k, v) ∈ m := by
  induction m with
  | nil => simp [alGet] at h
  | cons p rest ih =>
    obtain ⟨k0, v0⟩ := p
    by_cases h0 : k0 = k
    · subst h0
      simp [alGet] at h
      simp [h]
    · simp [alGet, h0] at h
      simp [ih h]

theorem mem_ordInsert (le : TableRow → TableRow → Bool) (x y : TableRow)
    (l : List TableRow) : y ∈ ordInsert le x l ↔ y = x ∨ y ∈ l := by
  induction l with
  | nil => simp [ordInsert]
  | cons z zs ih =>
    by_cases h : le x z
    · simp [ordInsert, h]
    · simp [ordInsert, h, ih]
      tauto

theorem ordInsert_perm (le : TableRow → TableRow → Bool) (x : TableRow)
    (l : List TableRow) : List.Perm (ordInsert le x l) (x :: l) := by
  induction l with
  | nil => simp [ordInsert]
  | cons z zs ih =>
    by_cases h : le x z
    · simp [ordInsert, h]
    · simp only [ordInsert, h, Bool.false_eq_true, if_false]
      exact (ih.cons z).trans (List.Perm.swap x z zs)

theorem sortRows_perm (le : TableRow → TableRow → Bool) (l : List TableRow) :
    List.Perm (sortRows le l) l := by
  induction l with
  | nil => simp [sortRows]
  | cons x xs ih => exact (ordInsert_perm le x (sortRows le xs)).trans (ih.cons x)

theorem mem_sortRows (le : TableRow → TableRow → Bool) (y : TableRow)
    (l : List TableRow) : y ∈ sortRows le l ↔ y ∈ l :=
  (sortRows_perm le l).mem_iff

theorem sortRows_eq_of_chain (le : TableRow → TableRow → Bool) (l : List TableRow)
    (h : List.Chain' (fun a b => le a b = true) l) : sortRows le l = l := by
  induction l with
  | nil => rfl
  | cons x xs ih =>
    have hx : sortRows le (x :: xs) = ordInsert le x (sortRows le xs) := rfl
    rw [hx, ih h.tail]
    cases xs with
    | nil => rfl
    | cons y ys =>
      have hxy : le x y = true := (List.chain'_cons.mp h).1
      simp [ordInsert, hxy]

theorem rowLe_eq_of_isSome (pk : String) (a b : TableRow)
    (ha : (numKey? pk a).isSome) (hb : (numKey? pk b).isSome) :
    rowLe pk a b = decide (rowNumKey pk a ≤ rowNumKey pk b) := by
  obtain ⟨x, hx⟩ := Option.isSome_iff_exists.mp ha
  obtain ⟨y, hy⟩ := Option.isSome_iff_exists.mp hb
  simp [rowLe, hx, hy, rowNumKey]

theorem rowLe_false_le (pk : String) (a b : TableRow)
    (h : rowLe pk a b = false) : rowNumKey pk b ≤ rowNumKey pk a := by
  cases hx : numKey? pk a with
  | none => simp [rowLe, hx] at h
  | some x =>
    cases hy : numKey? pk b with
    | none => simp [rowLe, hx, hy] at h
    | some y =>
      simp [rowLe, hx, hy] at h
      simp [rowNumKey, hx, hy]
      exact le_of_lt h

theorem pairwise_ordInsert (pk : String) (x : TableRow) (l : List TableRow)
    (hx : (numKey? pk x).isSome) (hl : ∀ r ∈ l, (numKey? pk r).isSome)
    (hp : List.Pairwise (fun a b => rowNumKey pk a ≤ rowNumKey pk b) l) :
    List.Pairwise (fun a b => rowNumKey pk a ≤ rowNumKey pk b)
      (ordInsert (rowLe pk) x l) := by
  induction l with
  | nil => simp [ordInsert]
  | cons y ys ih =>
    have hy : (numKey? pk y).isSome := hl y (by simp)
    have hys : ∀ r ∈ ys, (numKey? pk r).isSome := fun r hr => hl r (by simp [hr])
    rcases List.pairwise_cons.mp hp with ⟨hyall, hpys⟩
    by_cases hle : rowLe pk x y = true
    · have hxy : rowNumKey pk x ≤ rowNumKey pk y := by
        have := rowLe_eq_of_isSome pk x y hx hy
        rw [hle] at this
        exact of_decide_eq_true this.symm
      simp only [ordInsert, hle, if_true]
      refine List.pairwise_cons.mpr ⟨?_, hp⟩
      intro z hz
      rcases List.mem_cons.mp hz with h | h
      · rw [h]; exact hxy
      · exact le_trans hxy (hyall z h)
    · have hyx : rowNumKey pk x ≤ rowNumKey pk y ∨ rowNumKey pk y ≤ rowNumKey pk x :=
        le_total _ _
      have hle' : rowLe pk x y = false := by
        cases hb : rowLe pk x y
        · rfl
        · exact absurd hb hle
      have hylex : rowNumKey pk y ≤ rowNumKey pk x := rowLe_false_le pk x y hle'
      simp only [ordInsert, hle, Bool.false_eq_true, if_false]
      refine List.pairwise_cons.mpr ⟨?_, ih hys hpys⟩
      intro z hz
      rcases (mem_ordInsert (rowLe pk) x z ys).mp hz with h | h
      · rw [h]; exact hylex
      · exact hyall z h

theorem pairwise_sortRows (pk : String) (l : List TableRow)
    (h : ∀ r ∈ l, (numKey? pk r).isSome) :
    List.Pairwise (fun a b => rowNumKey pk a ≤ rowNumKey pk b)
      (sortRows (rowLe pk) l) := by
  induction l with
  | nil => simp [sortRows]
  | cons x xs ih =>
    have hx : sortRows (rowLe pk) (x :: xs) = ordInsert (rowLe pk) x (sortRows (rowLe pk) xs) := rfl
    rw [hx]
    refine pairwise_ordInsert pk x (sortRows (rowLe pk) xs) (h x (by simp)) ?_ ?_
    · intro r hr
      exact h r (by simp [(mem_sortRows (rowLe pk) r xs).mp hr])
    · exact ih (fun r hr => h r (by simp [hr]))

theorem mergeRow_get_of_null (c : String) : ∀ (n e : TableRow),
    (∀ p ∈ n, p.1 = c → p.2.value = CVal.null) →
    alGet (mergeRow e n) c = alGet e c := by
  intro n
  induction n with
  | nil => intro e _; rfl
  | cons p rest ih =>
    intro e h
    obtain ⟨ck, cd⟩ := p
    have hrest : ∀ q ∈ rest, q.1 = c → q.2.value = CVal.null :=
      fun q hq => h q (List.mem_cons_of_mem _ hq)
    by_cases hnull : cd.value = CVal.null
    · have hstep : mergeRow e ((ck, cd) :: rest) = mergeRow e rest := by
        simp [mergeRow, hnull]
      rw [hstep]
      exact ih e hrest
    · have hckc : ck ≠ c := by
        intro hc
        exact hnull (h (ck, cd) (List.mem_cons_self _ _) hc)
      have hstep : mergeRow e ((ck, cd) :: rest) = mergeRow (alSet e ck cd) rest := by
        simp [mergeRow, hnull]
      rw [hstep, ih _ hrest, alGet_alSet_ne e cd hckc]

theorem mergeRow_key (pk : String) : ∀ (n e : TableRow) (cd : CellData),
    ((n.map Prod.fst).Nodup) → (pk, cd) ∈ n → cd.value ≠ CVal.null →
    alGet (mergeRow e n) pk = some cd := by
  intro n
  induction n with
  | nil =>
    intro e cd _ hmem _
    simp at hmem
  | cons p rest ih =>
    intro e cd hnd hmem hnn
    obtain ⟨ck, cd0⟩ := p
    rw [List.map_cons, List.nodup_cons] at hnd
    rcases List.mem_cons.mp hmem with h | h
    · rw [Prod.mk.injEq] at h
      obtain ⟨h1, h2⟩ := h
      subst h1
      subst h2
      have hstep : mergeRow e ((pk, cd) :: rest) = mergeRow (alSet e pk cd) rest := by
        simp [mergeRow, hnn]
      rw [hstep]
      have hnok : ∀ q ∈ rest, q.1 = pk → q.2.value = CVal.null := by
        intro q hq hqc
        exact absurd (List.mem_map.mpr ⟨q, hq, hqc⟩) hnd.1
      rw [mergeRow_get_of_null pk rest _ hnok, alGet_alSet_self]
    · have hckpk : ck ≠ pk := by
        intro hc
        subst hc
        exact hnd.1 (List.mem_map.mpr ⟨(ck, cd), h, rfl⟩)
      by_cases hnull : cd0.value = CVal.null
      · have hstep : mergeRow e ((ck, cd0) :: rest) = mergeRow e rest := by
          simp [mergeRow, hnull]
        rw [hstep]
        exact ih e cd hnd.2 h hnn
      · have hstep : mergeRow e ((ck, cd0) :: rest) = mergeRow (alSet e ck cd0) rest := by
          simp [mergeRow, hnull]
        rw [hstep]
        exact ih _ cd hnd.2 h hnn

theorem mergeRow_self : ∀ (n acc : TableRow),
    (∀ p ∈ n, alGet acc p.1 = some p.2) → mergeRow acc n = acc := by
  intro n
  induction n with
  | nil => intro acc _; rfl
  | cons p rest ih =>
    intro acc h
    obtain ⟨ck, cd⟩ := p
    have hrest : ∀ q ∈ rest, alGet acc q.1 = some q.2 :=
      fun q hq => h q (List.mem_cons_of_mem _ hq)
    by_cases hnull : cd.value = CVal.null
    · have hstep : mergeRow acc ((ck, cd) :: rest) = mergeRow acc rest := by
        simp [mergeRow, hnull]
      rw [hstep]
      exact ih acc hrest
    · have hget : alGet acc ck = some cd := h (ck, cd) (List.mem_cons_self _ _)
      have hstep : mergeRow acc ((ck, cd) :: rest) = mergeRow (alSet acc ck cd) rest := by
        simp [mergeRow, hnull]
      rw [hstep, alSet_self_eq acc hget]
      exact ih acc hrest

theorem mapWF_indexStep (pk : String) (m : KeyMap) (row : TableRow)
    (h : mapWF pk m) : mapWF pk (indexStep pk m row) := by
  unfold indexStep
  cases hg : alGet row pk with
  | none => exact h
  | some cd =>
    by_cases hnull : cd.value = CVal.null
    · simp [hnull]
      exact h
    · simp [hnull]
      constructor
      · exact nodup_keys_alSet m cd.value row h.1
      · intro p hp
        rcases mem_alSet_cases m cd.value row p hp with hc | hc
        · subst hc
          exact ⟨hnull, by simp [rowKeyVal, hg]⟩
        · exact h.2 p hc

theorem mapWF_buildIndex (pk : String) (E : BarrelData) :
    mapWF pk (buildIndex pk E) := by
  have haux : ∀ (l : BarrelData) (m : KeyMap), mapWF pk m →
      mapWF pk (l.foldl (indexStep pk) m) := by
    intro l
    induction l with
    | nil => intro m hm; exact hm
    | cons r rest ih =>
      intro m hm
      exact ih (indexStep pk m r) (mapWF_indexStep pk m r hm)
  exact haux E [] ⟨List.nodup_nil, by intro p hp; simp at hp⟩

theorem mapWF_insertRow (pk : String) (m : KeyMap) (row : TableRow)
    (hrow : (row.map Prod.fst).Nodup) (h : mapWF pk m) :
    mapWF pk (insertRow pk m row) := by
  unfold insertRow
  cases hg : alGet row pk with
  | none => exact h
  | some cd =>
    by_cases hnull : cd.value = CVal.null
    · simp [hnull]
      exact h
    · simp [hnull]
      cases hm : alGet m cd.value with
      | some existingRow =>
        constructor
        · exact nodup_keys_alSet m cd.value _ h.1
        · intro p hp
          rcases mem_alSet_cases m cd.value _ p hp with hc | hc
          · subst hc
            refine ⟨hnull, ?_⟩
            have := mergeRow_key pk row existingRow cd hrow (alGet_mem row hg) hnull
            simp [rowKeyVal, this]
          · exact h.2 p hc
      | none =>
        constructor
        · exact nodup_keys_alSet m cd.value _ h.1
        · intro p hp
          rcases mem_alSet_cases m cd.value _ p hp with hc | hc
          · subst hc
            exact ⟨hnull, by simp [rowKeyVal, hg]⟩
          · exact h.2 p hc

theorem mapWF_mergedMap (pk : String) (E N : BarrelData)
    (hN : ∀ r ∈ N, (r.map Prod.fst).Nodup) :
    mapWF pk (mergedMap pk E N) := by
  have haux : ∀ (l : BarrelData) (m : KeyMap), (∀ r ∈ l, (r.map Prod.fst).Nodup) →
      mapWF pk m → mapWF pk (l.foldl (insertRow pk) m) := by
    intro l
    induction l with
    | nil => intro m _ hm; exact hm
    | cons r rest ih =>
      intro m hl hm
      exact ih (insertRow pk m r) (fun q hq => hl q (List.mem_cons_of_mem _ hq))
        (mapWF_insertRow pk m r (hl r (List.mem_cons_self _ _)) hm)
  exact haux N (buildIndex pk E) hN (mapWF_buildIndex pk E)


theorem keys_indexStep (pk : String) (m : KeyMap) (row : TableRow) (k : CVal) :
    k ∈ (indexStep pk m row).map Prod.fst ↔
      k ∈ m.map Prod.fst ∨ (rowKeyVal pk row = some k ∧ k ≠ CVal.null) := by
  cases hg : alGet row pk with
  | none =>
    have hred : indexStep pk m row = m := by simp [indexStep, hg]
    rw [hred]
    simp [rowKeyVal, hg]
  | some cd =>
    have hkey : rowKeyVal pk row = some cd.value := by simp [rowKeyVal, hg]
    by_cases hnull : cd.value = CVal.null
    · have hred : indexStep pk m row = m := by simp [indexStep, hg, hnull]
      rw [hred, hkey]
      constructor
      · exact Or.inl
      · rintro (h | ⟨h1, h2⟩)
        · exact h
        · rw [Option.some.injEq] at h1
          exact absurd (h1 ▸ hnull) h2
    · have hred : indexStep pk m row = alSet m cd.value row := by
        simp [indexStep, hg, hnull]
      rw [hred, mem_keys_alSet, hkey]
      constructor
      · rintro (h | h)
        · exact Or.inl h
        · exact Or.inr ⟨by rw [h], h ▸ hnull⟩
      · rintro (h | ⟨h1, h2⟩)
        · exact Or.inl h
        · rw [Option.some.injEq] at h1
          exact Or.inr h1.symm

theorem keys_buildIndex (pk : String) (E : BarrelData) (k : CVal) :
    k ∈ (buildIndex pk E).map Prod.fst ↔
      (∃ r ∈ E, rowKeyVal pk r = some k) ∧ k ≠ CVal.null := by
  have haux : ∀ (l : BarrelData) (m : KeyMap),
      k ∈ (l.foldl (indexStep pk) m).map Prod.fst ↔
        k ∈ m.map Prod.fst ∨ ((∃ r ∈ l, rowKeyVal pk r = some k) ∧ k ≠ CVal.null) := by
    intro l
    induction l with
    | nil => intro m; simp
    | cons r rest ih =>
      intro m
      rw [List.foldl_cons, ih, keys_indexStep]
      constructor
      · rintro ((h | ⟨h1, h2⟩) | ⟨⟨r', hr', h1⟩, h2⟩)
        · exact Or.inl h
        · exact Or.inr ⟨⟨r, List.mem_cons_self _ _, h1⟩, h2⟩
        · exact Or.inr ⟨⟨r', List.mem_cons_of_mem _ hr', h1⟩, h2⟩
      · rintro (h | ⟨⟨r', hr', h1⟩, h2⟩)
        · exact Or.inl (Or.inl h)
        · rcases List.mem_cons.mp hr' with hc | hc
          · exact Or.inl (Or.inr ⟨hc ▸ h1, h2⟩)
          · exact Or.inr ⟨⟨r', hc, h1⟩, h2⟩
  rw [buildIndex, haux]
  simp

theorem keys_insertRow (pk : String) (m : KeyMap) (row : TableRow) (k : CVal) :
    k ∈ (insertRow pk m row).map Prod.fst ↔
      k ∈ m.map Prod.fst ∨ (rowKeyVal pk row = some k ∧ k ≠ CVal.null) := by
  cases hg : alGet row pk with
  | none =>
    have hred : insertRow pk m row = m := by simp [insertRow, hg]
    rw [hred]
    simp [rowKeyVal, hg]
  | some cd =>
    have hkey : rowKeyVal pk row = some cd.value := by simp [rowKeyVal, hg]
    by_cases hnull : cd.value = CVal.null
    · have hred : insertRow pk m row = m := by simp [insertRow, hg, hnull]
      rw [hred, hkey]
      constructor
      · exact Or.inl
      · rintro (h | ⟨h1, h2⟩)
        · exact h
        · rw [Option.some.injEq] at h1
          exact absurd (h1 ▸ hnull) h2
    · cases hm : alGet m cd.value with
      | some ex =>
        have hred : insertRow pk m row = alSet m cd.value (mergeRow ex row) := by
          simp [insertRow, hg, hnull, hm]
        have hmem : cd.value ∈ m.map Prod.fst := by
          by_contra hc
          rw [← alGet_eq_none_iff] at hc
          rw [hc] at hm
          exact Option.noConfusion hm
        rw [hred, mem_keys_alSet, hkey]
        constructor
        · rintro (h | h)
          · exact Or.inl h
          · exact Or.inl (by rw [h]; exact hmem)
        · rintro (h | ⟨h1, h2⟩)
          · exact Or.inl h
          · rw [Option.some.injEq] at h1
            exact Or.inr h1.symm
      | none =>
        have hred : insertRow pk m row = alSet m cd.value row := by
          simp [insertRow, hg, hnull, hm]
        rw [hred, mem_keys_alSet, hkey]
        constructor
        · rintro (h | h)
          · exact Or.inl h
          · exact Or.inr ⟨by rw [h], h ▸ hnull⟩
        · rintro (h | ⟨h1, h2⟩)
          · exact Or.inl h
          · rw [Option.some.injEq] at h1
            exact Or.inr h1.symm

theorem keys_mergedMap (pk : String) (E N : BarrelData) (k : CVal) :
    k ∈ (mergedMap pk E N).map Prod.fst ↔
      k ≠ CVal.null ∧
        ((∃ r ∈ E, rowKeyVal pk r = some k) ∨ (∃ r ∈ N, rowKeyVal pk r = some k)) := by
  have haux : ∀ (l : BarrelData) (m : KeyMap),
      k ∈ (l.foldl (insertRow pk) m).map Prod.fst ↔
        k ∈ m.map Prod.fst ∨ ((∃ r ∈ l, rowKeyVal pk r = some k) ∧ k ≠ CVal.null) := by
    intro l
    induction l with
    | nil => intro m; simp
    | cons r rest ih =>
      intro m
      rw [List.foldl_cons, ih, keys_insertRow]
      constructor
      · rintro ((h | ⟨h1, h2⟩) | ⟨⟨r', hr', h1⟩, h2⟩)
        · exact Or.inl h
        · exact Or.inr ⟨⟨r, List.mem_cons_self _ _, h1⟩, h2⟩
        · exact Or.inr ⟨⟨r', List.mem_cons_of_mem _ hr', h1⟩, h2⟩
      · rintro (h | ⟨⟨r', hr', h1⟩, h2⟩)
        · exact Or.inl (Or.inl h)
        · rcases List.mem_cons.mp hr' with hc | hc
          · exact Or.inl (Or.inr ⟨hc ▸ h1, h2⟩)
          · exact Or.inr ⟨⟨r', hc, h1⟩, h2⟩
  rw [mergedMap, haux, keys_buildIndex]
  constructor
  · rintro (⟨hE, hne⟩ | ⟨hN, hne⟩)
    · exact ⟨hne, Or.inl hE⟩
    · exact ⟨hne, Or.inr hN⟩
  · rintro ⟨hne, h | h⟩
    · exact Or.inl ⟨h, hne⟩
    · exact Or.inr ⟨h, hne⟩

theorem mergedMap_track (pk : String) (k : CVal) (c : String) (rE : TableRow) :
    ∀ (N : BarrelData) (m : KeyMap),
    (∀ rN ∈ N, rowKeyVal pk rN = some k → ∀ p ∈ rN, p.1 = c → p.2.value = CVal.null) →
    (∃ r', alGet m k = some r' ∧ alGet r' c = alGet rE c) →
    ∃ r', alGet (N.foldl (insertRow pk) m) k = some r' ∧ alGet r' c = alGet rE c := by
  intro N
  induction N with
  | nil => intro m _ h; exact h
  | cons rN rest ih =>
    rintro m hnull ⟨r', hr', hrc⟩
    refine ih (insertRow pk m rN) (fun q hq => hnull q (List.mem_cons_of_mem _ hq)) ?_
    cases hg : alGet rN pk with
    | none =>
      have hred : insertRow pk m rN = m := by simp [insertRow, hg]
      rw [hred]
      exact ⟨r', hr', hrc⟩
    | some cd =>
      by_cases hnl : cd.value = CVal.null
      · have hred : insertRow pk m rN = m := by simp [insertRow, hg, hnl]
        rw [hred]
        exact ⟨r', hr', hrc⟩
      · by_cases hk : cd.value = k
        · subst hk
          have hred : insertRow pk m rN = alSet m cd.value (mergeRow r' rN) := by
            simp [insertRow, hg, hnl, hr']
          rw [hred]
          refine ⟨mergeRow r' rN, alGet_alSet_self m cd.value _, ?_⟩
          have hcnull : ∀ p ∈ rN, p.1 = c → p.2.value = CVal.null :=
            hnull rN (List.mem_cons_self _ _) (by simp [rowKeyVal, hg])
          rw [mergeRow_get_of_null c rN r' hcnull]
          exact hrc
        · cases hm : alGet m cd.value with
          | some ex =>
            have hred : insertRow pk m rN = alSet m cd.value (mergeRow ex rN) := by
              simp [insertRow, hg, hnl, hm]
            rw [hred]
            exact ⟨r', by rw [alGet_alSet_ne m _ hk, hr'], hrc⟩
          | none =>
            have hred : insertRow pk m rN = alSet m cd.value rN := by
              simp [insertRow, hg, hnl, hm]
            rw [hred]
            exact ⟨r', by rw [alGet_alSet_ne m _ hk, hr'], hrc⟩

theorem buildDataMap_get_unique (hk : String) (data : BarrelData) (r : TableRow) (q : ℚ)
    (hr : r ∈ data) (hq : heightNum hk r = some q)
    (huniq : ∀ r' ∈ data, heightNum hk r' = some q → r' = r) :
    alGet (buildDataMap hk data) q = some r := by
  suffices haux : ∀ (l : BarrelData) (m : HeightMap),
      (∀ r' ∈ l, heightNum hk r' = some q → r' = r) →
      (alGet m q = some r ∨ (alGet m q = none ∧ r ∈ l)) →
      alGet (l.foldl (dataMapStep hk) m) q = some r by
    exact haux data [] huniq (Or.inr ⟨rfl, hr⟩)
  intro l
  induction l with
  | nil =>
    rintro m _ (h1 | ⟨_, h2⟩)
    · exact h1
    · simp at h2
  | cons row rest ih =>
    rintro m huni hinv
    have hunir : ∀ r' ∈ rest, heightNum hk r' = some q → r' = r :=
      fun r' hr' => huni r' (List.mem_cons_of_mem _ hr')
    cases hg : heightNum hk row with
    | none =>
      have hred : dataMapStep hk m row = m := by simp [dataMapStep, hg]
      rw [List.foldl_cons, hred]
      refine ih m hunir ?_
      rcases hinv with h1 | ⟨h1, h2⟩
      · exact Or.inl h1
      · rcases List.mem_cons.mp h2 with hc | hc
        · rw [hc] at hq
          rw [hq] at hg
          exact Option.noConfusion hg
        · exact Or.inr ⟨h1, hc⟩
    | some q' =>
      have hred : dataMapStep hk m row = alSet m q' row := by simp [dataMapStep, hg]
      rw [List.foldl_cons, hred]
      by_cases hqq : q' = q
      · subst hqq
        have hrow : row = r := huni row (List.mem_cons_self _ _) hg
        refine ih (alSet m q' row) hunir (Or.inl ?_)
        rw [hrow, alGet_alSet_self]
      · refine ih (alSet m q' row) hunir ?_
        rcases hinv with h1 | ⟨h1, h2⟩
        · exact Or.inl (by rw [alGet_alSet_ne m row hqq]; exact h1)
        · rcases List.mem_cons.mp h2 with hc | hc
          · rw [hc] at hq
            rw [hq] at hg
            exact absurd ((Option.some.injEq _ _).mp hg).symm hqq
          · exact Or.inr ⟨by rw [alGet_alSet_ne m row hqq]; exact h1, hc⟩

theorem isEmpty_false_of_alGet {α β : Type} [DecidableEq α] (m : List (α × β)) (k : α)
    (v : β) (h : alGet m k = some v) : m.isEmpty = false := by
  cases m with
  | nil => exact absurd h (by simp [alGet])
  | cons p rest => rfl

theorem closest_none (hk : String) (h : ℚ) : ∀ (l : BarrelData) (acc : Option (TableRow × ℚ)),
    (∀ r ∈ l, rowPF hk r = none) → l.foldl (closestStep hk h) acc = acc := by
  intro l
  induction l with
  | nil => intro acc _; rfl
  | cons r rest ih =>
    intro acc hall
    have hpf : rowPF hk r = none := hall r (List.mem_cons_self _ _)
    have hred : closestStep hk h acc r = acc := by simp [closestStep, hpf]
    rw [List.foldl_cons, hred]
    exact ih acc (fun r' hr' => hall r' (List.mem_cons_of_mem _ hr'))

theorem closest_post (hk : String) (h : ℚ) : ∀ (post : BarrelData) (r : TableRow) (dr : ℚ),
    (∀ r' ∈ post, ∀ x', rowPF hk r' = some x' → dr ≤ ratAbs (x' - h)) →
    post.foldl (closestStep hk h) (some (r, dr)) = some (r, dr) := by
  intro post
  induction post with
  | nil => intro r dr _; rfl
  | cons r' rest ih =>
    intro r dr hall
    have hrest : ∀ q ∈ rest, ∀ x', rowPF hk q = some x' → dr ≤ ratAbs (x' - h) :=
      fun q hq => hall q (List.mem_cons_of_mem _ hq)
    cases hpf : rowPF hk r' with
    | none =>
      have hred : closestStep hk h (some (r, dr)) r' = some (r, dr) := by
        simp [closestStep, hpf]
      rw [List.foldl_cons, hred]
      exact ih r dr hrest
    | some x' =>
      have hle : dr ≤ ratAbs (x' - h) := hall r' (List.mem_cons_self _ _) x' hpf
      have hred : closestStep hk h (some (r, dr)) r' = some (r, dr) := by
        simp [closestStep, hpf, hle]
      rw [List.foldl_cons, hred]
      exact ih r dr hrest

theorem closest_pre (hk : String) (h : ℚ) (dr : ℚ) :
    ∀ (pre : BarrelData) (acc : Option (TableRow × ℚ)),
    (∀ r' ∈ pre, ∀ x', rowPF hk r' = some x' → dr < ratAbs (x' - h)) →
    (acc = none ∨ ∃ br bd, acc = some (br, bd) ∧ dr < bd) →
    (pre.foldl (closestStep hk h) acc = none ∨
      ∃ br bd, pre.foldl (closestStep hk h) acc = some (br, bd) ∧ dr < bd) := by
  intro pre
  induction pre with
  | nil => intro acc _ hacc; exact hacc
  | cons r' rest ih =>
    intro acc hall hacc
    have hrest : ∀ q ∈ rest, ∀ x', rowPF hk q = some x' → dr < ratAbs (x' - h) :=
      fun q hq => hall q (List.mem_cons_of_mem _ hq)
    rw [List.foldl_cons]
    refine ih (closestStep hk h acc r') hrest ?_
    cases hpf : rowPF hk r' with
    | none =>
      have hred : closestStep hk h acc r' = acc := by simp [closestStep, hpf]
      rw [hred]
      exact hacc
    | some x' =>
      have hlt : dr < ratAbs (x' - h) := hall r' (List.mem_cons_self _ _) x' hpf
      rcases hacc with hnone | ⟨br, bd, hsome, hbd⟩
      · subst hnone
        have hred : closestStep hk h none r' = some (r', ratAbs (x' - h)) := by
          simp [closestStep, hpf]
        rw [hred]
        exact Or.inr ⟨r', ratAbs (x' - h), rfl, hlt⟩
      · subst hsome
        by_cases hc : bd ≤ ratAbs (x' - h)
        · have hred : closestStep hk h (some (br, bd)) r' = some (br, bd) := by
            simp [closestStep, hpf, hc]
          rw [hred]
          exact Or.inr ⟨br, bd, rfl, hbd⟩
        · have hred : closestStep hk h (some (br, bd)) r' = some (r', ratAbs (x' - h)) := by
            simp [closestStep, hpf, hc]
          rw [hred]
          exact Or.inr ⟨r', ratAbs (x' - h), rfl, hlt⟩

theorem findClosest_of_all_nan (hk : String) (h : ℚ) (data : BarrelData)
    (hall : ∀ r ∈ data, rowPF hk r = none) : findClosest hk h data = none := by
  unfold findClosest
  rw [closest_none hk h data none hall]
  rfl

theorem findClosest_first_min (hk : String) (h : ℚ) (pre post : BarrelData)
    (r : TableRow) (x : ℚ) (hx : rowPF hk r = some x)
    (hpre : ∀ r' ∈ pre, ∀ x', rowPF hk r' = some x' →
      ratAbs (x - h) < ratAbs (x' - h))
    (hmin : ∀ r' ∈ pre ++ r :: post, ∀ x', rowPF hk r' = some x' →
      ratAbs (x - h) ≤ ratAbs (x' - h)) :
    findClosest hk h (pre ++ r :: post) = some r := by
  unfold findClosest
  rw [List.foldl_append, List.foldl_cons]
  have hpre' := closest_pre hk h (ratAbs (x - h)) pre none hpre (Or.inl rfl)
  have hstep : closestStep hk h (pre.foldl (closestStep hk h) none) r =
      some (r, ratAbs (x - h)) := by
    rcases hpre' with hnone | ⟨br, bd, hsome, hbd⟩
    · rw [hnone]
      simp [closestStep, hx]
    · rw [hsome]
      have hnle : ¬ bd ≤ ratAbs (x - h) := not_le.mpr hbd
      simp [closestStep, hx, hnle]
  rw [hstep]
  have hpost : ∀ r' ∈ post, ∀ x', rowPF hk r' = some x' →
      ratAbs (x - h) ≤ ratAbs (x' - h) := by
    intro r' hr' x' hx'
    exact hmin r' (by simp [hr']) x' hx'
  rw [closest_post hk h post r (ratAbs (x - h)) hpost]
  rfl

theorem calculate_eq_body (data : BarrelData) (tc : String) (h : ℚ) (hk : String)
    (hhk : chooseHeightKey data = some hk) (h1 : hk ≠ "") (h2 : tc ≠ "") :
    calculate data tc h = calcBody hk data tc h := by
  unfold calculate
  rw [hhk]
  simp [calcFrom, h1, h2]

theorem calcBody_exact (hk : String) (data : BarrelData) (tc : String) (h : ℚ)
    (row : TableRow) (hget : alGet (buildDataMap hk data) h = some row) :
    calcBody hk data tc h = ⟨.exact, some (getVal row tc)⟩ := by
  have hne := isEmpty_false_of_alGet _ _ _ hget
  simp [calcBody, hne, hget]

theorem calcBody_interp (hk : String) (data : BarrelData) (tc : String) (h : ℚ)
    (lr ur : TableRow) (lv uv : ℚ)
    (hex : alGet (buildDataMap hk data) h = none)
    (hlo : alGet (buildDataMap hk data) ((ratFloor h : ℤ) : ℚ) = some lr)
    (hhi : alGet (buildDataMap hk data) ((ratCeil h : ℤ) : ℚ) = some ur)
    (hlv : toNumber (getVal lr tc) = some lv)
    (huv : toNumber (getVal ur tc) = some uv) :
    calcBody hk data tc h =
      ⟨.interpolated,
        some (CVal.str (toFixed2 (lv + (uv - lv) * (h - ((ratFloor h : ℤ) : ℚ)))))⟩ := by
  have hne := isEmpty_false_of_alGet _ _ _ hlo
  simp [calcBody, hne, hex, hlo, hhi, hlv, huv]

theorem calcBody_fallback (hk : String) (data : BarrelData) (tc : String) (h : ℚ)
    (hne : (buildDataMap hk data).isEmpty = false)
    (hex : alGet (buildDataMap hk data) h = none)
    (hbound : alGet (buildDataMap hk data) ((ratFloor h : ℤ) : ℚ) = none ∨
      alGet (buildDataMap hk data) ((ratCeil h : ℤ) : ℚ) = none) :
    calcBody hk data tc h =
      (match findClosest hk h data with
        | some row => ⟨.nearest, some (getVal row tc)⟩
        | none => ⟨.notFound, none⟩) := by
  rcases hbound with hlo | hhi
  · cases hhi : alGet (buildDataMap hk data) ((ratCeil h : ℤ) : ℚ) with
    | none => simp [calcBody, hne, hex, hlo, hhi]
    | some ur => simp [calcBody, hne, hex, hlo, hhi]
  · cases hlo : alGet (buildDataMap hk data) ((ratFloor h : ℤ) : ℚ) with
    | none => simp [calcBody, hne, hex, hlo, hhi]
    | some lr => simp [calcBody, hne, hex, hlo, hhi]

theorem mergeBarrelData_eq (E N : BarrelData) (pk : String)
    (hE : E ≠ []) (hN : N ≠ []) (hpk : firstColName E = some pk) (hpk2 : pk ≠ "") :
    mergeBarrelData E N = sortRows (rowLe pk) ((mergedMap pk E N).map Prod.snd) := by
  cases E with
  | nil => exact absurd rfl hE
  | cons e es =>
    cases N with
    | nil => exact absurd rfl hN
    | cons n ns =>
      unfold mergeBarrelData
      rw [hpk]
      simp [hpk2]

theorem alGet_append_of_none {α β : Type} [DecidableEq α] :
    ∀ (m1 m2 : List (α × β)) (k : α), alGet m1 k = none →
    alGet (m1 ++ m2) k = alGet m2 k := by
  intro m1
  induction m1 with
  | nil => intro m2 k _; rfl
  | cons p rest ih =>
    intro m2 k h
    obtain ⟨k0, v0⟩ := p
    by_cases h0 : k0 = k
    · simp [alGet, h0] at h
    · have h2 : alGet rest k = none := by simpa [alGet, h0] using h
      show (if k0 = k then some v0 else alGet (rest ++ m2) k) = alGet m2 k
      rw [if_neg h0]
      exact ih m2 k h2

theorem chain'_imp_mem {l : List TableRow} {R S : TableRow → TableRow → Prop}
    (h : ∀ a ∈ l, ∀ b ∈ l, R a b → S a b) (hc : List.Chain' R l) :
    List.Chain' S l := by
  induction l with
  | nil => simp
  | cons x xs ih =>
    cases xs with
    | nil => simp
    | cons y ys =>
      rw [List.chain'_cons] at hc ⊢
      constructor
      · exact h x (List.mem_cons_self _ _) y (List.mem_cons_of_mem _ (List.mem_cons_self _ _)) hc.1
      · exact ih (fun a ha b hb hr => h a (List.mem_cons_of_mem _ ha) b (List.mem_cons_of_mem _ hb) hr) hc.2

theorem buildIndex_clean (pk : String) : ∀ (D : BarrelData) (m : KeyMap),
    (∀ r ∈ D, ∃ cd, alGet r pk = some cd ∧ cd.value ≠ CVal.null ∧ alGet m cd.value = none) →
    ((D.map (rowKeyVal pk)).Nodup) →
    D.foldl (indexStep pk) m =
      m ++ D.map (fun r => ((rowKeyVal pk r).getD CVal.null, r)) := by
  intro D
  induction D with
  | nil => intro m _ _; simp
  | cons r rest ih =>
    intro m hall hnd
    obtain ⟨cd, hget, hnn, hfresh⟩ := hall r (List.mem_cons_self _ _)
    have hkeyr : rowKeyVal pk r = some cd.value := by simp [rowKeyVal, hget]
    rw [List.map_cons, List.nodup_cons] at hnd
    have hred : indexStep pk m r = alSet m cd.value r := by simp [indexStep, hget, hnn]
    rw [List.foldl_cons, hred, alSet_append m r hfresh]
    have hall' : ∀ r' ∈ rest, ∃ cd', alGet r' pk = some cd' ∧ cd'.value ≠ CVal.null ∧
        alGet (m ++ [(cd.value, r)]) cd'.value = none := by
      intro r' hr'
      obtain ⟨cd', hget', hnn', hfresh'⟩ := hall r' (List.mem_cons_of_mem _ hr')
      refine ⟨cd', hget', hnn', ?_⟩
      have hne : cd'.value ≠ cd.value := by
        intro hc
        have : rowKeyVal pk r' = rowKeyVal pk r := by simp [rowKeyVal, hget', hget, hc]
        exact hnd.1 (List.mem_map.mpr ⟨r', hr', this⟩)
      rw [alGet_append_of_none m _ cd'.value hfresh']
      simp [alGet, Ne.symm hne]
    rw [ih (m ++ [(cd.value, r)]) hall' hnd.2]
    simp [hkeyr, List.append_assoc]

theorem foldInsert_id (pk : String) : ∀ (l : BarrelData) (m : KeyMap),
    (∀ r ∈ l, ((r.map Prod.fst).Nodup) ∧
      ∃ cd, alGet r pk = some cd ∧ cd.value ≠ CVal.null ∧ alGet m cd.value = some r) →
    l.foldl (insertRow pk) m = m := by
  intro l
  induction l with
  | nil => intro m _; rfl
  | cons r rest ih =>
    intro m hall
    obtain ⟨hnodup, cd, hget, hnn, hm⟩ := hall r (List.mem_cons_self _ _)
    have hmr : mergeRow r r = r :=
      mergeRow_self r r (fun p hp => alGet_of_mem_nodup r hnodup (by
        obtain ⟨a, b⟩ := p
        exact hp))
    have hred : insertRow pk m r = m := by
      simp [insertRow, hget, hnn, hm, hmr, alSet_self_eq m hm]
    rw [List.foldl_cons, hred]
    exact ih m (fun q hq => hall q (List.mem_cons_of_mem _ hq))

/-- C9: an interpolated result is rounded to exactly two decimal places:
with height 20 mapping to 200 and height 21 to 201.3, querying 20.5 yields
status `interpolated` and the two-decimal rendering `200.65`. -/
theorem c9_interpolation_rounding :
    calculate roundExData "vol" (41 / 2) =
      ⟨CalcStatus.interpolated, some (CVal.str "200.65")⟩ := by
  with_unfolding_all decide

/-- C1 counterexample: with rows at heights 20 and 30 only, the query 25 is
an integer, so `floor(25) = ceil(25) = 25` has no row and the code falls back
to the nearest neighbor (height 20, value 200, status `nearest`); it does not
return the interpolated 250.00 the claim asserts. -/
theorem c1_counterexample :
    calculate interpExData "vol" 25 = ⟨CalcStatus.nearest, some (CVal.num 200)⟩ ∧
      (⟨CalcStatus.nearest, some (CVal.num 200)⟩ : CalcResult) ≠
        ⟨CalcStatus.interpolated, some (CVal.str "250.00")⟩ := by
  with_unfolding_all decide

/-- C1 (amended): when there is no exact match, rows exist at exactly
`floor(queryHeight)` and `ceil(queryHeight)` in the height index, and both
target values are numeric, the result is status `interpolated` with value
`lowerVolume + (upperVolume - lowerVolume) * (queryHeight - floor(queryHeight))`
rendered to two decimals. -/
theorem c1_interpolation_floor_ceil (data : BarrelData) (tc : String) (h : ℚ)
    (hk : String) (lr ur : TableRow) (lv uv : ℚ)
    (hhk : chooseHeightKey data = some hk) (hk2 : hk ≠ "") (htc : tc ≠ "")
    (hex : alGet (buildDataMap hk data) h = none)
    (hlo : alGet (buildDataMap hk data) ((ratFloor h : ℤ) : ℚ) = some lr)
    (hhi : alGet (buildDataMap hk data) ((ratCeil h : ℤ) : ℚ) = some ur)
    (hlv : toNumber (getVal lr tc) = some lv)
    (huv : toNumber (getVal ur tc) = some uv) :
    calculate data tc h =
      ⟨CalcStatus.interpolated,
        some (CVal.str (toFixed2 (lv + (uv - lv) * (h - ((ratFloor h : ℤ) : ℚ)))))⟩ := by
  rw [calculate_eq_body data tc h hk hhk hk2 htc]
  exact calcBody_interp hk data tc h lr ur lv uv hex hlo hhi hlv huv

/-- C1 witness: the amended interpolation law applied to the concrete dataset
with heights 2 and 3 (volumes 20 and 30) at query height 2.5 yields the
interpolated value 25.00. -/
theorem c1_interpolation_floor_ceil_witness :
    calculate interpWitData "vol" (5 / 2) =
      ⟨CalcStatus.interpolated, some (CVal.str "25.00")⟩ := by
  have h := c1_interpolation_floor_ceil interpWitData "vol" (5 / 2) "mouille"
    [("mouille", cellN 2), ("vol", cellN 20)]
    [("mouille", cellN 3), ("vol", cellN 30)] 20 30
    (by with_unfolding_all decide) (by decide) (by decide)
    (by with_unfolding_all decide) (by with_unfolding_all decide)
    (by with_unfolding_all decide) (by with_unfolding_all decide)
    (by with_unfolding_all decide)
  rw [h]
  with_unfolding_all decide

/-- C4 counterexample: the height column is not always the first column of
the first row: with columns `H`, `mouille`, `vol` the code picks `mouille`
(the header containing "mouill"), and an exact lookup at 20 matches the row
whose `mouille` cell is 20 (volume 100), not the row whose first column `H`
is 20 (volume 200). -/
theorem c4_counterexample :
    chooseHeightKey mouillPrefData = some "mouille" ∧
      firstColName mouillPrefData = some "H" ∧ "mouille" ≠ "H" ∧
      calculate mouillPrefData "vol" 20 = ⟨CalcStatus.exact, some (CVal.num 100)⟩ := by
  refine ⟨by with_unfolding_all decide, by decide, by decide, ?_⟩
  with_unfolding_all decide

theorem find?_first_sat (p : String → Bool) : ∀ (pre : List String) (hk : String)
    (post : List String), (∀ c ∈ pre, p c = false) → p hk = true →
    (pre ++ hk :: post).find? p = some hk := by
  intro pre
  induction pre with
  | nil =>
    intro hk post _ hp
    rw [List.nil_append, List.find?_cons_of_pos _ hp]
  | cons c cs ih =>
    intro hk post hall hp
    have hc : p c = false := hall c (List.mem_cons_self _ _)
    rw [List.cons_append, List.find?_cons_of_neg _ (by simp [hc])]
    exact ih hk post (fun d hd => hall d (List.mem_cons_of_mem _ hd)) hp

/-- C4 (amended, full rule): for every non-empty dataset, the height column
is the first column name whose lower-casing contains "mouill" when one
exists, and only otherwise the first column of the first row; in both cases
`calculate` performs all of its lookups keyed on that column. -/
theorem c4_mouill_preference (r : TableRow) (rest : BarrelData)
    (tc : String) (h : ℚ) :
    (∀ (pre post : List String) (hk : String),
      r.map Prod.fst = pre ++ hk :: post →
      (∀ c ∈ pre, containsMouill c = false) →
      containsMouill hk = true →
      chooseHeightKey (r :: rest) = some hk ∧
        calculate (r :: rest) tc h = calcFrom (some hk) (r :: rest) tc h) ∧
    ((∀ c ∈ r.map Prod.fst, containsMouill c = false) →
      chooseHeightKey (r :: rest) = (r.map Prod.fst).head? ∧
        calculate (r :: rest) tc h =
          calcFrom ((r.map Prod.fst).head?) (r :: rest) tc h) := by
  constructor
  · intro pre post hk hsplit hpre hmouill
    have hfind : (r.map Prod.fst).find? containsMouill = some hk := by
      rw [hsplit]
      exact find?_first_sat containsMouill pre hk post hpre hmouill
    have hck : chooseHeightKey (r :: rest) = some hk := by
      simp [chooseHeightKey, hfind]
    exact ⟨hck, by rw [calculate, hck]⟩
  · intro hnm
    have hfind : (r.map Prod.fst).find? containsMouill = none :=
      List.find?_eq_none.mpr (fun x hx => by simp [hnm x hx])
    have hck : chooseHeightKey (r :: rest) = (r.map Prod.fst).head? := by
      simp [chooseHeightKey, hfind]
    exact ⟨hck, by rw [calculate, hck]⟩

/-- C4 witness: both branches of the height-key rule at concrete datasets:
headers `H`, `mouille`, `vol` choose `mouille` (the first "mouill" header,
not the first column), and headers `k`, `v` fall back to the first column
`k`; in each case `calculate` runs keyed on the chosen column. -/
theorem c4_mouill_preference_witness :
    (chooseHeightKey mouillPrefData = some "mouille" ∧
      calculate mouillPrefData "vol" 20 =
        calcFrom (some "mouille") mouillPrefData "vol" 20) ∧
    (chooseHeightKey unsortedData = some "k" ∧
      calculate unsortedData "v" 20 = calcFrom (some "k") unsortedData "v" 20) := by
  constructor
  · exact (c4_mouill_preference
      [("H", cellN 10), ("mouille", cellN 20), ("vol", cellN 100)]
      [[("H", cellN 20), ("mouille", cellN 30), ("vol", cellN 200)]] "vol" 20).1
      ["H"] ["vol"] "mouille" rfl
      (by
        intro c hc
        simp only [List.mem_singleton] at hc
        subst hc
        with_unfolding_all decide)
      (by with_unfolding_all decide)
  · exact (c4_mouill_preference
      [("k", cellN 30), ("v", cellN 1)] [[("k", cellN 20), ("v", cellN 2)]] "v" 20).2
      (by
        intro c hc
        simp only [List.map_cons, List.map_nil, List.mem_cons,
          List.not_mem_nil, or_false] at hc
        rcases hc with hc | hc <;> subst hc <;> with_unfolding_all decide)


/-- C6 counterexample: merge is not idempotent on a dataset with non-null
numeric keys that is out of ascending order: merging `unsortedData` (keys
30 then 20) with itself re-sorts the rows, so the result differs from the
input. -/
theorem c6_counterexample :
    mergeBarrelData unsortedData unsortedData ≠ unsortedData ∧
      mergeBarrelData unsortedData unsortedData =
        [[("k", cellN 20), ("v", cellN 2)], [("k", cellN 30), ("v", cellN 1)]] := by
  with_unfolding_all decide

/-- C10: a row whose height cell is null, the empty string, or a whitespace
string is indexed under numeric height 0 (ECMAScript `Number` coerces these
to 0), so a query at height 0 returns status `exact` with that row's target
value, provided no other row coerces to height 0. -/
theorem c10_null_height_exact_zero (data : BarrelData) (tc hk : String)
    (r : TableRow) (c : CellData)
    (hhk : chooseHeightKey data = some hk) (hk2 : hk ≠ "") (htc : tc ≠ "")
    (hr : r ∈ data) (hcell : alGet r hk = some c)
    (hval : c.value = CVal.null ∨ c.value = CVal.str "" ∨
      ∃ s, c.value = CVal.str s ∧ s.data.all isWS = true)
    (huniq : ∀ r' ∈ data, heightNum hk r' = some 0 → r' = r) :
    calculate data tc 0 = ⟨CalcStatus.exact, some (getVal r tc)⟩ := by
  have hnum : toNumber c.value = some 0 := by
    rcases hval with h | h | ⟨s, hs, hws⟩
    · rw [h]; rfl
    · rw [h]; rfl
    · rw [hs]
      show jsStrToNum s = some 0
      have htrim : trimWS s.data = [] := by
        unfold trimWS
        have hall : ∀ x ∈ s.data, isWS x := by
          intro x hx
          exact List.all_eq_true.mp hws x hx
        rw [List.dropWhile_eq_nil_iff.mpr hall]
        simp
      unfold jsStrToNum
      rw [htrim]
  have hh : heightNum hk r = some 0 := by simp [heightNum, hcell, hnum]
  have hget := buildDataMap_get_unique hk data r 0 hr hh huniq
  rw [calculate_eq_body data tc 0 hk hhk hk2 htc]
  exact calcBody_exact hk data tc 0 r hget

/-- C10 witness: the single-row dataset whose height cell is null: querying
height 0 returns that row's volume 42 with status `exact`, although no cell
reads 0. -/
theorem c10_null_height_exact_zero_witness :
    calculate nullHeightData "vol" 0 = ⟨CalcStatus.exact, some (CVal.num 42)⟩ := by
  have h := c10_null_height_exact_zero nullHeightData "vol" "mouille"
    [("mouille", cellNull), ("vol", cellN 42)] cellNull
    (by with_unfolding_all decide) (by decide) (by decide)
    (by with_unfolding_all decide) (by with_unfolding_all decide)
    (Or.inl rfl)
    (by
      intro r' hr' _
      simpa [nullHeightData] using hr')
  rw [h]
  with_unfolding_all decide

/-- C8: when there is no exact match and no complete floor/ceil bounding
pair, the calculator scans all rows left to right over parseFloat-numeric
heights: if no row has a numeric height the status is `notFound`; otherwise
the first row attaining the minimum absolute height distance wins and its
target value is returned with status `nearest`. -/
theorem c8_nearest_scan (data : BarrelData) (tc : String) (h : ℚ) (hk : String)
    (hhk : chooseHeightKey data = some hk) (hk2 : hk ≠ "") (htc : tc ≠ "")
    (hne : (buildDataMap hk data).isEmpty = false)
    (hex : alGet (buildDataMap hk data) h = none)
    (hbound : alGet (buildDataMap hk data) ((ratFloor h : ℤ) : ℚ) = none ∨
      alGet (buildDataMap hk data) ((ratCeil h : ℤ) : ℚ) = none) :
    ((∀ r ∈ data, rowPF hk r = none) →
        calculate data tc h = ⟨CalcStatus.notFound, none⟩) ∧
      (∀ (pre post : BarrelData) (r : TableRow) (x : ℚ),
        data = pre ++ r :: post → rowPF hk r = some x →
        (∀ r' ∈ pre, ∀ x', rowPF hk r' = some x' →
          ratAbs (x - h) < ratAbs (x' - h)) →
        (∀ r' ∈ data, ∀ x', rowPF hk r' = some x' →
          ratAbs (x - h) ≤ ratAbs (x' - h)) →
        calculate data tc h = ⟨CalcStatus.nearest, some (getVal r tc)⟩) := by
  have hcalc := calculate_eq_body data tc h hk hhk hk2 htc
  have hbody := calcBody_fallback hk data tc h hne hex hbound
  constructor
  · intro hall
    rw [hcalc, hbody, findClosest_of_all_nan hk h data hall]
  · intro pre post r x hdata hx hpre hmin
    rw [hcalc, hbody, hdata,
      findClosest_first_min hk h pre post r x hx hpre (hdata ▸ hmin)]

/-- C8 witness: with heights 10 and 50 and query 12 (no exact match, no
bounding pair), the scan returns the value at height 10 (distance 2 beats
38), status `nearest`. -/
theorem c8_nearest_scan_witness :
    calculate nearestExData "vol" 12 = ⟨CalcStatus.nearest, some (CVal.num 220)⟩ := by
  have hglob : ∀ r' ∈ nearestExData, ∀ x',
      rowPF "mouille" r' = some x' →
      ratAbs ((10 : ℚ) - 12) ≤ ratAbs (x' - 12) := by
    intro r' hr' x' hx'
    simp only [nearestExData, List.mem_cons, List.not_mem_nil, or_false] at hr'
    rcases hr' with hc | hc
    · subst hc
      have h10 : rowPF "mouille" [("mouille", cellN 10), ("vol", cellN 220)] =
          some 10 := by with_unfolding_all decide
      rw [h10] at hx'
      injection hx' with hh
      rw [← hh]
    · subst hc
      have h50 : rowPF "mouille" [("mouille", cellN 50), ("vol", cellN 500)] =
          some 50 := by with_unfolding_all decide
      rw [h50] at hx'
      injection hx' with hh
      rw [← hh]
      with_unfolding_all decide
  have h := (c8_nearest_scan nearestExData "vol" 12 "mouille"
    (by with_unfolding_all decide) (by decide) (by decide)
    (by with_unfolding_all decide) (by with_unfolding_all decide)
    (Or.inl (by with_unfolding_all decide))).2
    [] [[("mouille", cellN 50), ("vol", cellN 500)]]
    [("mouille", cellN 10), ("vol", cellN 220)] 10
    rfl (by with_unfolding_all decide)
    (by intro r' hr'; simp at hr')
    hglob
  rw [h]
  with_unfolding_all decide

/-- C3 counterexample: merging a dataset whose keys are 3, "abc" (NaN), 1
with a batch repeating the key-3 row leaves the rows in order 3, "abc", 1:
the comparator returns 0 against the NaN-keyed row, so the numeric keys 3
and 1 are never compared and remain out of order. -/
theorem c3_counterexample :
    (mergeBarrelData mixedKeyData [rowK3]).filterMap (numKey? "k") = [3, 1] ∧
      ¬ ((3 : ℚ) ≤ 1) := by
  with_unfolding_all decide

/-- C3 (amended): when every row of both inputs has a primary-key cell that
is absent, null, or numerically coercible, the merge result is non-decreasing
by numeric primary-key value; with NaN keys interleaved the comparator is
non-transitive and numeric rows need not stay ordered. -/
theorem c3_sorted_all_numeric (E N : BarrelData) (pk : String)
    (hE : E ≠ []) (hN : N ≠ []) (hpk : firstColName E = some pk) (hpk2 : pk ≠ "")
    (hNod : ∀ r ∈ N, (r.map Prod.fst).Nodup)
    (hnumE : ∀ r ∈ E, keyNumericOk pk r = true)
    (hnumN : ∀ r ∈ N, keyNumericOk pk r = true) :
    List.Pairwise (fun a b => rowNumKey pk a ≤ rowNumKey pk b)
      (mergeBarrelData E N) := by
  rw [mergeBarrelData_eq E N pk hE hN hpk hpk2]
  apply pairwise_sortRows
  intro r hr
  obtain ⟨p, hp, hpeq⟩ := List.mem_map.mp hr
  have hWF := mapWF_mergedMap pk E N hNod
  have hkv : rowKeyVal pk r = some p.1 := by
    rw [← hpeq]
    exact (hWF.2 p hp).2
  have hnn : p.1 ≠ CVal.null := (hWF.2 p hp).1
  have hkeys : p.1 ∈ (mergedMap pk E N).map Prod.fst := List.mem_map.mpr ⟨p, hp, rfl⟩
  rw [keys_mergedMap] at hkeys
  have hsome : (toNumber p.1).isSome := by
    rcases hkeys.2 with ⟨r0, hr0, hrk⟩ | ⟨r0, hr0, hrk⟩
    · have hok := hnumE r0 hr0
      simp only [keyNumericOk, hrk] at hok
      simpa [hnn] using hok
    · have hok := hnumN r0 hr0
      simp only [keyNumericOk, hrk] at hok
      simpa [hnn] using hok
  have hnk : numKey? pk r = toNumber p.1 := by simp [numKey?, hkv]
  rw [hnk]
  exact hsome

/-- C3 witness: the all-numeric sortedness applied to the concrete merge of
keys 30, 20 with a batch keyed 3. -/
theorem c3_sorted_all_numeric_witness :
    List.Pairwise (fun a b => rowNumKey "k" a ≤ rowNumKey "k" b)
      (mergeBarrelData unsortedData [rowK3]) :=
  c3_sorted_all_numeric unsortedData [rowK3] "k"
    (by decide) (by decide) (by decide) (by decide)
    (by
      intro r hr
      simp only [List.mem_singleton] at hr
      subst hr
      with_unfolding_all decide)
    (by
      intro r hr
      simp only [unsortedData, List.mem_cons, List.not_mem_nil, or_false] at hr
      rcases hr with hc | hc <;> subst hc <;> with_unfolding_all decide)
    (by
      intro r hr
      simp only [List.mem_singleton] at hr
      subst hr
      with_unfolding_all decide)

/-- C5: for any key present in both inputs, an incoming cell that is null
(or a column absent from the incoming row) never replaces the existing cell
of that column: the merged row keeps the existing cell. -/
theorem c5_merge_conservatism (E N : BarrelData) (pk c : String) (k : CVal)
    (rE row : TableRow)
    (hE : E ≠ []) (hN : N ≠ []) (hpk : firstColName E = some pk) (hpk2 : pk ≠ "")
    (hNod : ∀ r ∈ N, (r.map Prod.fst).Nodup)
    (hidx : alGet (buildIndex pk E) k = some rE)
    (hnull : ∀ rN ∈ N, rowKeyVal pk rN = some k →
      ∀ p ∈ rN, p.1 = c → p.2.value = CVal.null)
    (hrow : row ∈ mergeBarrelData E N) (hkey : rowKeyVal pk row = some k) :
    alGet row c = alGet rE c := by
  rw [mergeBarrelData_eq E N pk hE hN hpk hpk2] at hrow
  have hWF := mapWF_mergedMap pk E N hNod
  have hrow' : row ∈ (mergedMap pk E N).map Prod.snd :=
    (mem_sortRows _ row _).mp hrow
  obtain ⟨p, hp, hpeq⟩ := List.mem_map.mp hrow'
  have hk1 : rowKeyVal pk p.2 = some p.1 := (hWF.2 p hp).2
  rw [hpeq, hkey] at hk1
  have hkeq : p.1 = k := ((Option.some.injEq _ _).mp hk1).symm
  have hpkr : p = (k, row) := by
    rw [Prod.ext_iff]
    exact ⟨hkeq, hpeq⟩
  obtain ⟨r', hr', hrc⟩ :=
    mergedMap_track pk k c rE N (buildIndex pk E) hnull ⟨rE, hidx, rfl⟩
  have hget : alGet (mergedMap pk E N) k = some row :=
    alGet_of_mem_nodup _ hWF.1 (hpkr ▸ hp)
  rw [mergedMap] at hget
  rw [hget] at hr'
  injection hr' with hreq
  rw [hreq]
  exact hrc

/-- C5 witness: merging an incoming row with a null `vol` cell (plus a new
`w` column) into an existing row with `vol` 7 keeps the existing `vol` cell
in the merged output row. -/
theorem c5_merge_conservatism_witness :
    alGet ([("k", cellN 1), ("vol", cellN 7), ("w", cellN 9)] : TableRow) "vol" =
      alGet ([("k", cellN 1), ("vol", cellN 7)] : TableRow) "vol" := by
  refine c5_merge_conservatism consExistData consIncData "k" "vol" (CVal.num 1)
    [("k", cellN 1), ("vol", cellN 7)]
    [("k", cellN 1), ("vol", cellN 7), ("w", cellN 9)]
    (by decide) (by decide) (by decide) (by decide)
    (by
      intro r hr
      simp only [consIncData, List.mem_singleton] at hr
      subst hr
      with_unfolding_all decide)
    (by with_unfolding_all decide)
    ?_
    (by with_unfolding_all decide)
    (by with_unfolding_all decide)
  intro rN hrN hkv p hp hpc
  simp only [consIncData, List.mem_cons, List.not_mem_nil, or_false] at hrN
  subst hrN
  simp only [List.mem_cons, List.not_mem_nil, or_false] at hp
  rcases hp with hc | hc | hc <;> subst hc
  · simp at hpc
  · rfl
  · simp at hpc

/-- C2 counterexample: a key present as the number 25 in the existing data
and as the string "25" in the incoming data yields two output rows (Map keys
use strict SameValueZero equality), both of which coerce to the numeric key
25. -/
theorem c2_counterexample :
    (mergeBarrelData numKeyData strKeyData).length = 2 ∧
      (mergeBarrelData numKeyData strKeyData).map
        (fun r => (rowKeyVal "k" r).bind toNumber) = [some 25, some 25] := by
  with_unfolding_all decide

/-- C2 (amended): the merge output contains exactly the union of the
non-null primary-key values of both inputs under strict (type-sensitive)
value equality, each such key value appearing in exactly one output row;
a numeric key and its string spelling are distinct keys. -/
theorem c2_union_unique_strict (E N : BarrelData) (pk : String)
    (hE : E ≠ []) (hN : N ≠ []) (hpk : firstColName E = some pk) (hpk2 : pk ≠ "")
    (hNod : ∀ r ∈ N, (r.map Prod.fst).Nodup) :
    ((mergeBarrelData E N).map (rowKeyVal pk)).Nodup ∧
      ∀ v : CVal, (some v ∈ (mergeBarrelData E N).map (rowKeyVal pk) ↔
        (v ≠ CVal.null ∧ ((∃ r ∈ E, rowKeyVal pk r = some v) ∨
          ∃ r ∈ N, rowKeyVal pk r = some v))) := by
  have hWF := mapWF_mergedMap pk E N hNod
  rw [mergeBarrelData_eq E N pk hE hN hpk hpk2]
  have hperm : List.Perm
      ((sortRows (rowLe pk) ((mergedMap pk E N).map Prod.snd)).map (rowKeyVal pk))
      (((mergedMap pk E N).map Prod.snd).map (rowKeyVal pk)) :=
    (sortRows_perm (rowLe pk) ((mergedMap pk E N).map Prod.snd)).map _
  have hvals : ((mergedMap pk E N).map Prod.snd).map (rowKeyVal pk) =
      (mergedMap pk E N).map (fun p => some p.1) := by
    rw [List.map_map]
    refine List.map_congr_left ?_
    intro p hp
    exact (hWF.2 p hp).2
  constructor
  · rw [List.Perm.nodup_iff hperm, hvals]
    have hsplit : (mergedMap pk E N).map (fun p => some p.1) =
        ((mergedMap pk E N).map Prod.fst).map some := by
      rw [List.map_map]
      rfl
    rw [hsplit]
    exact hWF.1.map (Option.some_injective _)
  · intro v
    rw [List.Perm.mem_iff hperm, hvals]
    have hmm : some v ∈ (mergedMap pk E N).map (fun p => some p.1) ↔
        v ∈ (mergedMap pk E N).map Prod.fst := by
      simp [List.mem_map]
    rw [hmm, keys_mergedMap]

/-- C2 witness: merging the number-25 and string-"25" datasets: the output
key list is duplicate-free and contains the string key "25". -/
theorem c2_union_unique_strict_witness :
    ((mergeBarrelData numKeyData strKeyData).map (rowKeyVal "k")).Nodup ∧
      some (CVal.str "25") ∈ (mergeBarrelData numKeyData strKeyData).map (rowKeyVal "k") := by
  have h := c2_union_unique_strict numKeyData strKeyData "k"
    (by decide) (by decide) (by decide) (by decide)
    (by
      intro r hr
      simp only [strKeyData, List.mem_singleton] at hr
      subst hr
      decide)
  refine ⟨h.1, (h.2 (CVal.str "25")).mpr ⟨by decide, Or.inr ?_⟩⟩
  exact ⟨[("k", cellS "25"), ("v", cellN 2)], by decide, by decide⟩

/-- C6 (amended): merge is idempotent on a dataset whose rows have
duplicate-free column names and non-null, numerically-coercible,
pairwise-distinct primary-key values, provided the dataset is already in
ascending numeric key order: `merge(D, D) = D`. -/
theorem c6_idempotent_sorted (D : BarrelData) (pk : String)
    (hpk : firstColName D = some pk) (hpk2 : pk ≠ "")
    (hcols : ∀ r ∈ D, (r.map Prod.fst).Nodup)
    (hnum : ∀ r ∈ D, keyAllNum pk r = true)
    (hkeys : (D.map (rowKeyVal pk)).Nodup)
    (hsorted : List.Chain' (fun a b => rowNumKey pk a ≤ rowNumKey pk b) D) :
    mergeBarrelData D D = D := by
  have hD : D ≠ [] := by
    intro hc
    rw [hc] at hpk
    simp [firstColName] at hpk
  have hex : ∀ r ∈ D, ∃ cd, alGet r pk = some cd ∧ cd.value ≠ CVal.null ∧
      (toNumber cd.value).isSome := by
    intro r hr
    have hok := hnum r hr
    cases hkv : rowKeyVal pk r with
    | none => simp [keyAllNum, hkv] at hok
    | some v =>
      simp [keyAllNum, hkv] at hok
      rw [rowKeyVal] at hkv
      obtain ⟨cd, hcd, hcdv⟩ := Option.map_eq_some'.mp hkv
      exact ⟨cd, hcd, by rw [hcdv]; exact hok.1, by rw [hcdv]; exact hok.2⟩
  have hcleanHyp : ∀ r ∈ D, ∃ cd, alGet r pk = some cd ∧ cd.value ≠ CVal.null ∧
      alGet ([] : KeyMap) cd.value = none := by
    intro r hr
    obtain ⟨cd, h1, h2, _⟩ := hex r hr
    exact ⟨cd, h1, h2, rfl⟩
  have hidx : buildIndex pk D =
      D.map (fun r => ((rowKeyVal pk r).getD CVal.null, r)) := by
    rw [buildIndex, buildIndex_clean pk D [] hcleanHyp hkeys]
    rw [List.nil_append]
  have hkeysPairs :
      ((D.map (fun r => ((rowKeyVal pk r).getD CVal.null, r))).map Prod.fst).Nodup := by
    rw [List.map_map]
    have heq : (Prod.fst ∘ fun r => ((rowKeyVal pk r).getD CVal.null, r)) =
        (fun o => o.getD CVal.null) ∘ (rowKeyVal pk) := rfl
    rw [heq, ← List.map_map]
    refine List.Nodup.map_on ?_ hkeys
    intro x hx y hy hxy
    obtain ⟨ra, hra, hxa⟩ := List.mem_map.mp hx
    obtain ⟨rb, hrb, hxb⟩ := List.mem_map.mp hy
    obtain ⟨cda, hga, _, _⟩ := hex ra hra
    obtain ⟨cdb, hgb, _, _⟩ := hex rb hrb
    have hxa' : x = some cda.value := by rw [← hxa]; simp [rowKeyVal, hga]
    have hxb' : y = some cdb.value := by rw [← hxb]; simp [rowKeyVal, hgb]
    rw [hxa', hxb'] at hxy ⊢
    simp at hxy
    rw [hxy]
  have hfold : D.foldl (insertRow pk) (buildIndex pk D) = buildIndex pk D := by
    apply foldInsert_id
    intro r hr
    obtain ⟨cd, hget, hnn, _⟩ := hex r hr
    refine ⟨hcols r hr, cd, hget, hnn, ?_⟩
    rw [hidx]
    apply alGet_of_mem_nodup _ hkeysPairs
    have hkey : (rowKeyVal pk r).getD CVal.null = cd.value := by
      simp [rowKeyVal, hget]
    have hmem0 : ((rowKeyVal pk r).getD CVal.null, r) ∈
        D.map (fun r => ((rowKeyVal pk r).getD CVal.null, r)) :=
      List.mem_map.mpr ⟨r, hr, rfl⟩
    rw [hkey] at hmem0
    exact hmem0
  rw [mergeBarrelData_eq D D pk hD hD hpk hpk2, mergedMap, hfold, hidx]
  have hvals : (D.map (fun r => ((rowKeyVal pk r).getD CVal.null, r))).map Prod.snd = D := by
    rw [List.map_map]
    show D.map (fun r => r) = D
    simp
  rw [hvals]
  apply sortRows_eq_of_chain
  refine chain'_imp_mem ?_ hsorted
  intro a ha b hb hab
  obtain ⟨cda, hga, hna, hsa⟩ := hex a ha
  obtain ⟨cdb, hgb, hnb, hsb⟩ := hex b hb
  have hsa' : (numKey? pk a).isSome := by
    have heq : numKey? pk a = toNumber cda.value := by simp [numKey?, rowKeyVal, hga]
    rw [heq]
    exact hsa
  have hsb' : (numKey? pk b).isSome := by
    have heq : numKey? pk b = toNumber cdb.value := by simp [numKey?, rowKeyVal, hgb]
    rw [heq]
    exact hsb
  rw [rowLe_eq_of_isSome pk a b hsa' hsb']
  exact decide_eq_true hab

/-- C6 witness: the idempotence applied to the sorted two-row dataset with
distinct numeric keys 20 and 30. -/
theorem c6_idempotent_sorted_witness :
    mergeBarrelData sortedData sortedData = sortedData :=
  c6_idempotent_sorted sortedData "k"
    (by decide) (by decide)
    (by
      intro r hr
      simp only [sortedData, List.mem_cons, List.not_mem_nil, or_false] at hr
      rcases hr with hc | hc <;> subst hc <;> decide)
    (by
      intro r hr
      simp only [sortedData, List.mem_cons, List.not_mem_nil, or_false] at hr
      rcases hr with hc | hc <;> subst hc <;> with_unfolding_all decide)
    (by with_unfolding_all decide)
    (by
      show List.Chain' (fun a b => rowNumKey "k" a ≤ rowNumKey "k" b)
        [[("k", cellN 20), ("v", cellN 2)], [("k", cellN 30), ("v", cellN 1)]]
      rw [List.chain'_cons]
      exact ⟨by with_unfolding_all decide, by simp⟩)
